import Mathlib

/-!
# Verification of `MutatorDel` (notebook/mutsim/src/del.cpp)

Shallow embedding of the deletion-mutation simulator: the sliding-window loop
`MutatorDel::process`, the event constructor `MutatorDel::Deletion::Deletion`,
the diagnostic printer `MutatorDel::Deletion::print`, and the accessor
`MutatorDel::get_mut_count`.

Sequences are `List Char`.  The external collaborators (counting table,
histogram, skip policy, logger) are declared by their interface contracts;
the `uint`/`ulong` machine integers are modelled as `Nat` (no computation in
the code overflows for the realistic parameter ranges, and the one wrapping
subtraction `i - k + 1` at `i = k - 1` is written `i + 1 - k`, which agrees
with the C++ two's-complement result for every admissible `i ≥ k - 1`).
-/

namespace Mutsim

/-- C++ `std::string::substr(pos, len)` restricted to in-range `pos`
(`pos ≤ s.length`, the only way the program calls it): the at-most-`len`
characters starting at index `pos`. -/
def substrCpp (s : List Char) (pos len : Nat) : List Char :=
  (s.drop pos).take len

/-- Modelled from the spec: the counting table's single-k-mer exact-match
abundance lookup (`lookupAbundance(kmer) -> non-negative integer count`);
the table itself is external (khmer), so it is an abstract function. -/
structure Counttable where
  get_count : List Char → Nat

/-- Modelled from the spec: the counting table's k-mer extraction service,
`extractKmers(sequence) -> ordered sequence of k-mer strings, length =
sequence.length − k + 1` (sliding window of width `k`, stride 1). -/
def get_kmers (k : Nat) (s : List Char) : List (List Char) :=
  (List.range (s.length + 1 - k)).map (fun i => substrCpp s i k)

/-- Modelled from the spec: the histogram contract's `increment(bucketKey)`;
a histogram is the bucket-to-count map it represents. -/
def histIncrement (h : Nat → Nat) (key : Nat) : Nat → Nat :=
  fun b => if b = key then h b + 1 else h b

/-- The `MutatorDel` object state: `k`, `delsize`, `limit`, `delcount` are the
fields of `MutatorDel`/its base `Mutator`; `abund_hist`/`unique_hist` are the
two run-scoped histograms.  The base class's sampling policy `skip_nucl()` is
modelled from the spec (`shouldSkip() -> boolean`, opaque, possibly stateful)
as an oracle stream `skipF` read at the cursor `nskip`, advanced once per
call; `logcount` models the logger's internal progress counter. -/
structure MutatorDel where
  k : Nat
  delsize : Nat
  limit : Nat
  delcount : Nat
  abund_hist : Nat → Nat
  unique_hist : Nat → Nat
  skipF : Nat → Bool
  nskip : Nat
  logcount : Nat

/-- The transient `MutatorDel::Deletion` event: junction sequence and its
per-k-mer abundance vector. -/
structure Deletion where
  sequence : List Char
  abunds : List Nat

/-- The loop body of the `Deletion` constructor, folded left-to-right over the
extracted k-mers: accumulates (abundance vector, abundance histogram, local
`unique_count`); each step looks up the k-mer's count, increments the
abundance histogram at it, appends it to `abunds`, and bumps `unique_count`
when the count is zero. -/
def delFold (ct : Counttable) :
    List (List Char) → List Nat × (Nat → Nat) × Nat → List Nat × (Nat → Nat) × Nat
  | [], acc => acc
  | kmer :: rest, (abunds, ah, uc) =>
    let kmer_freq := ct.get_count kmer
    delFold ct rest
      (abunds ++ [kmer_freq], histIncrement ah kmer_freq,
       if kmer_freq = 0 then uc + 1 else uc)

/-- `MutatorDel::Deletion::Deletion(seq, mut, counttable)`: extracts the
k-mers of `seq`, folds them through `delFold`, and finally increments the
shared `unique_hist` once at the final `unique_count`.  Returns the built
event together with the updated mutator state. -/
def mkDeletion (seq : List Char) (m : MutatorDel) (ct : Counttable) :
    Deletion × MutatorDel :=
  let kmers := get_kmers m.k seq
  let r := delFold ct kmers ([], m.abund_hist, 0)
  (⟨seq, r.1⟩,
   { m with abund_hist := r.2.1, unique_hist := histIncrement m.unique_hist r.2.2 })

/-- The junction built at deletion point `i`:
`sequence.substr(i - k + 1, k - 1) + sequence.substr(i + delsize, k)`.
The C++ `ulong` expression `i - k + 1` is written `i + 1 - k`, its value for
every loop index `i ≥ k - 1`. -/
def junction (seq : List Char) (k delsize i : Nat) : List Char :=
  substrCpp seq (i + 1 - k) (k - 1) ++ substrCpp seq (i + delsize) k

/-- The indices visited by `for (ulong i = k - 1; i + k + delsize <= len; i++)`:
`i` from `k - 1` while `i + k + delsize ≤ len`. -/
def windowIndices (k delsize len : Nat) : List Nat :=
  List.range' (k - 1) (len + 1 - (k + delsize) - (k - 1))

/-- The state change of one retained (non-skipped) loop iteration at window
position `i`, in source order: `delcount++`; build the junction; construct
the `Deletion` (histogram side effects); `logger.increment()`. -/
def retainedStep (ct : Counttable) (seq : List Char) (i : Nat) (m : MutatorDel) :
    MutatorDel :=
  let m2 := { m with delcount := m.delcount + 1 }
  let m3 := (mkDeletion (junction seq m2.k m2.delsize i) m2 ct).2
  { m3 with logcount := m3.logcount + 1 }

/-- The cursor advance performed by each call of the skip oracle
(`skip_nucl()` consumes one decision). -/
def skipAdvance (m : MutatorDel) : MutatorDel :=
  { m with nskip := m.nskip + 1 }

/-- The loop of `MutatorDel::process` over the remaining window indices,
carrying the mutator state and the running `kmercount`.  Per iteration, in
source order: `break` when `limit > 0 && delcount > limit`; call
`skip_nucl()` (advance the oracle cursor) and `continue` when it says skip;
otherwise perform the retained step and `kmercount += k` (the member `k` is
never written, so the current `k` is `m.k`). -/
def processLoop (ct : Counttable) (seq : List Char) :
    List Nat → MutatorDel × Nat → MutatorDel × Nat
  | [], acc => acc
  | i :: rest, (m, kmercount) =>
    if m.limit > 0 ∧ m.delcount > m.limit then
      (m, kmercount)
    else if m.skipF m.nskip then
      processLoop ct seq rest (skipAdvance m, kmercount)
    else
      processLoop ct seq rest (retainedStep ct seq i (skipAdvance m), kmercount + m.k)

/-- `MutatorDel::process(sequence, counttable)`: run the window loop from
`kmercount = 0`; returns the final state and the returned `kmercount`. -/
def process (m : MutatorDel) (sequence : List Char) (ct : Counttable) :
    MutatorDel × Nat :=
  processLoop ct sequence (windowIndices m.k m.delsize sequence.length) (m, 0)

/-- `MutatorDel::get_mut_count()`: returns `delcount`. -/
def get_mut_count (m : MutatorDel) : Nat :=
  m.delcount

/-- Decimal rendering of a `uint` by `stream << abund`. -/
def natChars (n : Nat) : List Char :=
  (Nat.repr n).toList

/-- The first loop of `Deletion::print`: emit `k` space characters. -/
def printSpacesLoop (stream : List Char) : Nat → List Char
  | 0 => stream
  | n + 1 => printSpacesLoop (stream ++ [' ']) n

/-- The second loop of `Deletion::print`: for `i = 0 .. k-1`, emit a space
separator when `i > 0`, then the decimal of `abunds[i]`.  The loop counts
`fuel = k - i` down so the recursion is structural. -/
def printAbundsGo (abunds : List Nat) : Nat → Nat → List Char → List Char
  | 0, _, stream => stream
  | fuel + 1, i, stream =>
    printAbundsGo abunds fuel (i + 1)
      ((if 0 < i then stream ++ [' '] else stream) ++ natChars (abunds.getD i 0))

/-- `MutatorDel::Deletion::print(stream)`: the text appended to the stream —
`'>' << sequence << '\n'`, then `k` spaces and `'|' << '\n'`, then the
space-separated abundances and a final newline.  (`mut.k` is passed as `k`.) -/
def Deletion.print (k : Nat) (d : Deletion) : List Char :=
  let s1 := '>' :: d.sequence ++ ['\n']
  let s2 := printSpacesLoop s1 k ++ ['|', '\n']
  printAbundsGo d.abunds k 0 s2 ++ ['\n']

/-- Closed form of the tail of the abundance line, positions `i .. i+n-1`:
one space-separated decimal per index. -/
def abundsTail (abunds : List Nat) (i n : Nat) : List Char :=
  ((List.range' i n).map (fun j => ' ' :: natChars (abunds.getD j 0))).flatten

/-- The junction as claim C7's words read when positions are the 0-based
indices used throughout the spec's own example: left flank = substring of
length `k − 1` of the input sequence **ending at position `i` inclusive**
(so starting at `i − (k − 1) + 1 = i + 2 − k`), right flank = substring of
length `k` starting at `i + delsize`; refinement comparison definition. -/
def specJunctionC7 (seq : List Char) (k delsize i : Nat) : List Char :=
  substrCpp seq (i + 2 - k) (k - 1) ++ substrCpp seq (i + delsize) k

/-- The junction as amended: left flank = substring of length `k − 1` ending
at position `i − 1` inclusive (so starting at `(i − 1) + 2 − k`), right flank
unchanged; refinement comparison definition. -/
def specJunctionC7amended (seq : List Char) (k delsize i : Nat) : List Char :=
  substrCpp seq ((i - 1) + 2 - k) (k - 1) ++ substrCpp seq (i + delsize) k

/-- Per-event abundance multiset contribution at bucket `b`: how many of the
junction k-mers at deletion point `i` have abundance `b`. -/
def eventFreqs (ct : Counttable) (k delsize : Nat) (seq : List Char) (i : Nat) :
    List Nat :=
  (get_kmers k (junction seq k delsize i)).map ct.get_count

/-- Total abundance-histogram contribution of a run over `idxs` at bucket `b`. -/
def abundContrib (ct : Counttable) (k delsize : Nat) (seq : List Char)
    (idxs : List Nat) (b : Nat) : Nat :=
  (idxs.map (fun i => (eventFreqs ct k delsize seq i).count b)).sum

/-- Total unique-count-histogram contribution of a run over `idxs` at bucket `b`. -/
def uniqueContrib (ct : Counttable) (k delsize : Nat) (seq : List Char)
    (idxs : List Nat) (b : Nat) : Nat :=
  (idxs.map (fun i => if (eventFreqs ct k delsize seq i).count 0 = b then 1 else 0)).sum

/-- A zero-count counting table, for concrete runs. -/
def ctZero : Counttable :=
  ⟨fun _ => 0⟩

/-- A concrete mutator: `k = 3`, `delsize = 2`, no limit, fresh counters,
never-skip policy, empty histograms. -/
def mutK3D2 : MutatorDel :=
  ⟨3, 2, 0, 0, fun _ => 0, fun _ => 0, fun _ => false, 0, 0⟩

/-- A concrete mutator: `k = 3`, `delsize = 1`, limit 1, fresh counters,
never-skip policy, empty histograms. -/
def mutK3D1L1 : MutatorDel :=
  ⟨3, 1, 1, 0, fun _ => 0, fun _ => 0, fun _ => false, 0, 0⟩

/-! ## Basic facts about substrings and the window range -/

theorem substrCpp_length (s : List Char) (pos len : Nat) :
    (substrCpp s pos len).length = min len (s.length - pos) := by
  simp [substrCpp]

theorem mem_windowIndices {k d len i : Nat} :
    i ∈ windowIndices k d len ↔ k - 1 ≤ i ∧ i + k + d ≤ len := by
  unfold windowIndices
  rw [List.mem_range'_1]
  omega

theorem junction_length (seq : List Char) (k d i : Nat) (hk : 1 ≤ k)
    (hi : k - 1 ≤ i) (hub : i + k + d ≤ seq.length) :
    (junction seq k d i).length = 2 * k - 1 := by
  simp only [junction, List.length_append, substrCpp_length]
  omega

/-! ## The `Deletion` constructor fold -/

theorem delFold_abunds (ct : Counttable) (l : List (List Char))
    (ab : List Nat) (ah : Nat → Nat) (uc : Nat) :
    (delFold ct l (ab, ah, uc)).1 = ab ++ l.map ct.get_count := by
  induction l generalizing ab ah uc with
  | nil => simp [delFold]
  | cons kmer rest ih => simp [delFold, ih]

theorem delFold_unique (ct : Counttable) (l : List (List Char))
    (ab : List Nat) (ah : Nat → Nat) (uc : Nat) :
    (delFold ct l (ab, ah, uc)).2.2 = uc + (l.map ct.get_count).count 0 := by
  induction l generalizing ab ah uc with
  | nil => simp [delFold]
  | cons kmer rest ih =>
    simp only [delFold, List.map_cons, List.count_cons, ih]
    split
    · simp_all
      ring
    · simp_all

theorem delFold_abund_hist (ct : Counttable) (l : List (List Char))
    (ab : List Nat) (ah : Nat → Nat) (uc : Nat) (b : Nat) :
    (delFold ct l (ab, ah, uc)).2.1 b = ah b + (l.map ct.get_count).count b := by
  induction l generalizing ab ah uc with
  | nil => simp [delFold]
  | cons kmer rest ih =>
    simp only [delFold, List.map_cons, List.count_cons, ih, histIncrement]
    split <;> simp_all <;> omega

theorem mkDeletion_abunds (seq : List Char) (m : MutatorDel) (ct : Counttable) :
    (mkDeletion seq m ct).1.abunds = (get_kmers m.k seq).map ct.get_count := by
  simp [mkDeletion, delFold_abunds]

theorem mkDeletion_abund_hist (seq : List Char) (m : MutatorDel) (ct : Counttable)
    (b : Nat) :
    (mkDeletion seq m ct).2.abund_hist b =
      m.abund_hist b + ((get_kmers m.k seq).map ct.get_count).count b := by
  simp [mkDeletion, delFold_abund_hist]

theorem mkDeletion_unique_hist (seq : List Char) (m : MutatorDel) (ct : Counttable) :
    (mkDeletion seq m ct).2.unique_hist =
      histIncrement m.unique_hist (((get_kmers m.k seq).map ct.get_count).count 0) := by
  simp [mkDeletion, delFold_unique]

theorem mkDeletion_frame (seq : List Char) (m : MutatorDel) (ct : Counttable) :
    (mkDeletion seq m ct).2.k = m.k ∧
    (mkDeletion seq m ct).2.delsize = m.delsize ∧
    (mkDeletion seq m ct).2.limit = m.limit ∧
    (mkDeletion seq m ct).2.delcount = m.delcount ∧
    (mkDeletion seq m ct).2.skipF = m.skipF ∧
    (mkDeletion seq m ct).2.nskip = m.nskip ∧
    (mkDeletion seq m ct).2.logcount = m.logcount := by
  simp [mkDeletion]

theorem get_kmers_length_of_junction (k : Nat) (seq : List Char) (hk : 1 ≤ k)
    (hlen : seq.length = 2 * k - 1) :
    (get_kmers k seq).length = k := by
  simp only [get_kmers, List.length_map, List.length_range]
  omega

/-! ## One retained iteration -/

theorem retainedStep_k (ct : Counttable) (seq : List Char) (i : Nat)
    (m : MutatorDel) : (retainedStep ct seq i m).k = m.k := by
  simp [retainedStep, mkDeletion]

theorem retainedStep_delsize (ct : Counttable) (seq : List Char) (i : Nat)
    (m : MutatorDel) : (retainedStep ct seq i m).delsize = m.delsize := by
  simp [retainedStep, mkDeletion]

theorem retainedStep_limit (ct : Counttable) (seq : List Char) (i : Nat)
    (m : MutatorDel) : (retainedStep ct seq i m).limit = m.limit := by
  simp [retainedStep, mkDeletion]

theorem retainedStep_skipF (ct : Counttable) (seq : List Char) (i : Nat)
    (m : MutatorDel) : (retainedStep ct seq i m).skipF = m.skipF := by
  simp [retainedStep, mkDeletion]

theorem retainedStep_delcount (ct : Counttable) (seq : List Char) (i : Nat)
    (m : MutatorDel) : (retainedStep ct seq i m).delcount = m.delcount + 1 := by
  simp [retainedStep, mkDeletion]

theorem retainedStep_abund_hist (ct : Counttable) (seq : List Char) (i : Nat)
    (m : MutatorDel) (b : Nat) :
    (retainedStep ct seq i m).abund_hist b =
      m.abund_hist b + (eventFreqs ct m.k m.delsize seq i).count b := by
  simp [retainedStep, mkDeletion, delFold_abund_hist, eventFreqs]

theorem retainedStep_unique_hist (ct : Counttable) (seq : List Char) (i : Nat)
    (m : MutatorDel) (b : Nat) :
    (retainedStep ct seq i m).unique_hist b =
      m.unique_hist b +
        (if (eventFreqs ct m.k m.delsize seq i).count 0 = b then 1 else 0) := by
  simp only [retainedStep, mkDeletion, delFold_unique, histIncrement, eventFreqs]
  split <;> split <;> simp_all

theorem skipAdvance_k (m : MutatorDel) : (skipAdvance m).k = m.k := rfl

theorem skipAdvance_delsize (m : MutatorDel) :
    (skipAdvance m).delsize = m.delsize := rfl

theorem skipAdvance_limit (m : MutatorDel) : (skipAdvance m).limit = m.limit := rfl

theorem skipAdvance_skipF (m : MutatorDel) : (skipAdvance m).skipF = m.skipF := rfl

theorem skipAdvance_delcount (m : MutatorDel) :
    (skipAdvance m).delcount = m.delcount := rfl

theorem skipAdvance_abund_hist (m : MutatorDel) :
    (skipAdvance m).abund_hist = m.abund_hist := rfl

theorem skipAdvance_unique_hist (m : MutatorDel) :
    (skipAdvance m).unique_hist = m.unique_hist := rfl

/-! ## Loop invariants of `process` -/

theorem processLoop_frame (ct : Counttable) (seq : List Char) (idxs : List Nat) :
    ∀ (m : MutatorDel) (kc : Nat),
      (processLoop ct seq idxs (m, kc)).1.k = m.k ∧
      (processLoop ct seq idxs (m, kc)).1.delsize = m.delsize ∧
      (processLoop ct seq idxs (m, kc)).1.limit = m.limit ∧
      (processLoop ct seq idxs (m, kc)).1.skipF = m.skipF := by
  induction idxs with
  | nil => intro m kc; exact ⟨rfl, rfl, rfl, rfl⟩
  | cons i rest ih =>
    intro m kc
    simp only [processLoop]
    split
    · exact ⟨rfl, rfl, rfl, rfl⟩
    · split
      · exact ih _ kc
      · have h := ih (retainedStep ct seq i (skipAdvance m)) (kc + m.k)
        simpa [retainedStep_k, retainedStep_delsize, retainedStep_limit,
          retainedStep_skipF, skipAdvance_k, skipAdvance_delsize,
          skipAdvance_limit, skipAdvance_skipF] using h

theorem processLoop_stopped (ct : Counttable) (seq : List Char) (idxs : List Nat)
    (m : MutatorDel) (kc : Nat) (hl : 0 < m.limit) (hc : m.limit < m.delcount) :
    processLoop ct seq idxs (m, kc) = (m, kc) := by
  cases idxs with
  | nil => rfl
  | cons i rest =>
    simp only [processLoop]
    rw [if_pos ⟨hl, hc⟩]

theorem processLoop_delcount_le (ct : Counttable) (seq : List Char)
    (idxs : List Nat) :
    ∀ (m : MutatorDel) (kc : Nat), 0 < m.limit → m.delcount ≤ m.limit + 1 →
      (processLoop ct seq idxs (m, kc)).1.delcount ≤ m.limit + 1 := by
  induction idxs with
  | nil => intro m kc _ h; exact h
  | cons i rest ih =>
    intro m kc hl h
    simp only [processLoop]
    split
    · exact h
    · rename_i hcond
      split
      · exact ih (skipAdvance m) kc hl h
      · have hle : m.delcount ≤ m.limit := by
          by_contra hgt
          exact hcond ⟨hl, by omega⟩
        have h' := ih (retainedStep ct seq i (skipAdvance m)) (kc + m.k)
        rw [retainedStep_limit, retainedStep_delcount, skipAdvance_limit,
          skipAdvance_delcount] at h'
        exact h' hl (by omega)

theorem processLoop_kmercount (ct : Counttable) (seq : List Char)
    (idxs : List Nat) :
    ∀ (m : MutatorDel) (kc : Nat),
      ∃ n, (processLoop ct seq idxs (m, kc)).1.delcount = m.delcount + n ∧
           (processLoop ct seq idxs (m, kc)).2 = kc + n * m.k := by
  induction idxs with
  | nil => intro m kc; exact ⟨0, by simp [processLoop]⟩
  | cons i rest ih =>
    intro m kc
    simp only [processLoop]
    split
    · exact ⟨0, by simp⟩
    · split
      · obtain ⟨n, h1, h2⟩ := ih (skipAdvance m) kc
        rw [skipAdvance_delcount] at h1
        rw [skipAdvance_k] at h2
        exact ⟨n, h1, h2⟩
      · obtain ⟨n, h1, h2⟩ := ih (retainedStep ct seq i (skipAdvance m)) (kc + m.k)
        rw [retainedStep_delcount, skipAdvance_delcount] at h1
        rw [retainedStep_k, skipAdvance_k] at h2
        refine ⟨n + 1, ?_, ?_⟩
        · rw [h1]; ring
        · rw [h2]; ring

theorem processLoop_delcount_min (ct : Counttable) (seq : List Char)
    (idxs : List Nat) :
    ∀ (m : MutatorDel) (kc : Nat), 0 < m.limit → (∀ n, m.skipF n = false) →
      m.delcount ≤ m.limit + 1 →
      (processLoop ct seq idxs (m, kc)).1.delcount
        = min (m.delcount + idxs.length) (m.limit + 1) := by
  induction idxs with
  | nil => intro m kc _ _ h; simp only [processLoop, List.length_nil]; omega
  | cons i rest ih =>
    intro m kc hl hs h
    simp only [processLoop, List.length_cons]
    split
    · rename_i hcond
      have hfst : (m, kc).1.delcount = m.delcount := rfl
      omega
    · rename_i hcond
      rw [hs m.nskip, if_neg (by simp)]
      have hle : m.delcount ≤ m.limit := by
        by_contra hgt
        exact hcond ⟨hl, by omega⟩
      have h' := ih (retainedStep ct seq i (skipAdvance m)) (kc + m.k)
      rw [retainedStep_limit, skipAdvance_limit, retainedStep_delcount,
        skipAdvance_delcount, retainedStep_skipF, skipAdvance_skipF] at h'
      rw [h' hl hs (by omega)]
      omega

theorem abundContrib_cons (ct : Counttable) (k d : Nat) (seq : List Char)
    (i : Nat) (rest : List Nat) (b : Nat) :
    abundContrib ct k d seq (i :: rest) b =
      (eventFreqs ct k d seq i).count b + abundContrib ct k d seq rest b := by
  simp [abundContrib]

theorem uniqueContrib_cons (ct : Counttable) (k d : Nat) (seq : List Char)
    (i : Nat) (rest : List Nat) (b : Nat) :
    uniqueContrib ct k d seq (i :: rest) b =
      (if (eventFreqs ct k d seq i).count 0 = b then 1 else 0) +
        uniqueContrib ct k d seq rest b := by
  simp [uniqueContrib]

theorem processLoop_hists (ct : Counttable) (seq : List Char) (idxs : List Nat) :
    ∀ (m : MutatorDel) (kc b : Nat), m.limit = 0 → (∀ n, m.skipF n = false) →
      (processLoop ct seq idxs (m, kc)).1.abund_hist b
        = m.abund_hist b + abundContrib ct m.k m.delsize seq idxs b ∧
      (processLoop ct seq idxs (m, kc)).1.unique_hist b
        = m.unique_hist b + uniqueContrib ct m.k m.delsize seq idxs b := by
  induction idxs with
  | nil =>
    intro m kc b _ _
    simp [processLoop, abundContrib, uniqueContrib]
  | cons i rest ih =>
    intro m kc b hl hs
    simp only [processLoop]
    rw [if_neg (by simp [hl]), hs m.nskip, if_neg (by simp)]
    have h' := ih (retainedStep ct seq i (skipAdvance m)) (kc + m.k) b
    rw [retainedStep_limit, skipAdvance_limit, retainedStep_skipF,
      skipAdvance_skipF, retainedStep_k, skipAdvance_k, retainedStep_delsize,
      skipAdvance_delsize] at h'
    obtain ⟨ha, hu⟩ := h' hl hs
    constructor
    · rw [ha, retainedStep_abund_hist, skipAdvance_abund_hist, skipAdvance_k,
        skipAdvance_delsize, abundContrib_cons]
      omega
    · rw [hu, retainedStep_unique_hist, skipAdvance_unique_hist, skipAdvance_k,
        skipAdvance_delsize, uniqueContrib_cons]
      omega

/-! ## The printing loops -/

theorem printSpacesLoop_eq (n : Nat) :
    ∀ stream : List Char,
      printSpacesLoop stream n = stream ++ List.replicate n ' ' := by
  induction n with
  | zero => intro stream; simp [printSpacesLoop]
  | succ n ih =>
    intro stream
    simp [printSpacesLoop, ih, List.replicate_succ]

theorem printAbundsGo_eq (ab : List Nat) (fuel : Nat) :
    ∀ (i : Nat) (stream : List Char), 0 < i →
      printAbundsGo ab fuel i stream = stream ++ abundsTail ab i fuel := by
  induction fuel with
  | zero => intro i stream _; simp [printAbundsGo, abundsTail]
  | succ fuel ih =>
    intro i stream hi
    simp only [printAbundsGo, if_pos hi]
    rw [ih (i + 1) _ (by omega)]
    simp [abundsTail, List.range'_succ, List.append_assoc]

/-! ## Claim theorems -/

/-- C1: for `k = 3`, `d = 2`, sequence `"AAACCCGGGTTT"` (length 12), the loop
visits the deletion points `i = 2, …, 7` exactly (a never-skip, no-limit run
retains all 6 of them), and at `i = 2` the junction is
`substr(0,2) = "AA"` concatenated with `substr(4,3) = "CCG"`, i.e. `"AACCG"`,
of length `5 = 2·3 − 1`. -/
theorem claim_C1_example_run :
    windowIndices 3 2 ("AAACCCGGGTTT".toList.length) = [2, 3, 4, 5, 6, 7] ∧
    substrCpp "AAACCCGGGTTT".toList 0 2 = "AA".toList ∧
    substrCpp "AAACCCGGGTTT".toList 4 3 = "CCG".toList ∧
    junction "AAACCCGGGTTT".toList 3 2 2 =
      substrCpp "AAACCCGGGTTT".toList 0 2 ++ substrCpp "AAACCCGGGTTT".toList 4 3 ∧
    junction "AAACCCGGGTTT".toList 3 2 2 = "AACCG".toList ∧
    (junction "AAACCCGGGTTT".toList 3 2 2).length = 5 ∧
    5 = 2 * 3 - 1 ∧
    (process mutK3D2 "AAACCCGGGTTT".toList ctZero).1.delcount = 6 := by
  decide

/-- C2: for every sequence and every window position `i` in the loop range,
the junction has length exactly `2k − 1`, independent of `d` and of the
sequence length, so the length assertion after the concatenation never
fires. -/
theorem claim_C2_junction_length (seq : List Char) (k d i : Nat) (hk : 1 ≤ k)
    (hi : i ∈ windowIndices k d seq.length) :
    (junction seq k d i).length = 2 * k - 1 := by
  rw [mem_windowIndices] at hi
  exact junction_length seq k d i hk hi.1 hi.2

/-- Witness for C2 at `k = 3`, `d = 2`, the spec's example sequence, `i = 2`. -/
theorem claim_C2_junction_length_witness :
    1 ≤ 3 ∧ 2 ∈ windowIndices 3 2 ("AAACCCGGGTTT".toList.length) ∧
    (junction "AAACCCGGGTTT".toList 3 2 2).length = 2 * 3 - 1 :=
  ⟨by decide, by decide,
   claim_C2_junction_length "AAACCCGGGTTT".toList 3 2 2 (by decide) (by decide)⟩

/-- C4: for every sequence shorter than `2k + d − 1`, `process` returns 0 and
performs no side effects — the final state (deletion counter, abundance
histogram, unique-count histogram, and everything else) is the input state. -/
theorem claim_C4_short_sequence_noop (m : MutatorDel) (ct : Counttable)
    (seq : List Char) (hk : 1 ≤ m.k)
    (hlen : seq.length < 2 * m.k + m.delsize - 1) :
    process m seq ct = (m, 0) := by
  unfold process windowIndices
  have h0 : seq.length + 1 - (m.k + m.delsize) - (m.k - 1) = 0 := by omega
  rw [h0, List.range'_zero]
  rfl

/-- Witness for C4: `k = 3`, `d = 2`, sequence `"AAAA"` of length `4 < 7`. -/
theorem claim_C4_short_sequence_noop_witness :
    1 ≤ mutK3D2.k ∧
    ("AAAA".toList.length < 2 * mutK3D2.k + mutK3D2.delsize - 1) ∧
    process mutK3D2 "AAAA".toList ctZero = (mutK3D2, 0) :=
  ⟨by decide, by decide,
   claim_C4_short_sequence_noop mutK3D2 ctZero "AAAA".toList (by decide) (by decide)⟩

/-- C7 counterexample: at the retained deletion point `i = 2` of a run with
`k = 3`, `d = 1` on `"ACGTACGT"`, the code's junction (left flank
`substr(0,2) = "AC"`, ending at position 1) differs from the claim's junction
(left flank the substring of length `k − 1` ending at position `i = 2`
inclusive, `substr(1,2) = "CG"`). -/
theorem claim_C7_counterexample :
    2 ∈ windowIndices 3 1 ("ACGTACGT".toList.length) ∧
    junction "ACGTACGT".toList 3 1 2 ≠ specJunctionC7 "ACGTACGT".toList 3 1 2 := by
  decide

/-- C7 as amended: for every retained deletion point `i` (`i ≥ k − 1`), the
left flank of the junction is the substring of length `k − 1` of the input
sequence ending at position `i − 1` inclusive, and the right flank is the
substring of length `k` starting at `i + d`; the junction is their
concatenation. -/
theorem claim_C7_amended_flanks (seq : List Char) (k d i : Nat) (hk : 1 ≤ k)
    (hi : k - 1 ≤ i) :
    junction seq k d i = specJunctionC7amended seq k d i := by
  rcases Nat.lt_or_ge k 2 with h2 | h2
  · have hk1 : k = 1 := by omega
    subst hk1
    simp [junction, specJunctionC7amended, substrCpp]
  · have hstart : i + 1 - k = (i - 1) + 2 - k := by omega
    simp [junction, specJunctionC7amended, hstart]

/-- Witness for the amended C7 at `k = 3`, `d = 1`, `i = 4`. -/
theorem claim_C7_amended_flanks_witness :
    1 ≤ 3 ∧ 3 - 1 ≤ 4 ∧
    junction "ACGTACGT".toList 3 1 4 = specJunctionC7amended "ACGTACGT".toList 3 1 4 :=
  ⟨by decide, by decide,
   claim_C7_amended_flanks "ACGTACGT".toList 3 1 4 (by decide) (by decide)⟩

/-- C3: constructing a `Deletion` from a junction of length `2k − 1` extracts
exactly `k` k-mers; the abundance vector is their counts in left-to-right
order (length exactly `k`); the shared abundance histogram gains one count
per k-mer at that k-mer's abundance; and the shared unique-count histogram
is incremented exactly once, at the number of k-mers of abundance zero. -/
theorem claim_C3_deletion_event (m : MutatorDel) (ct : Counttable)
    (seq : List Char) (hk : 1 ≤ m.k) (hlen : seq.length = 2 * m.k - 1) :
    (get_kmers m.k seq).length = m.k ∧
    (mkDeletion seq m ct).1.abunds = (get_kmers m.k seq).map ct.get_count ∧
    (mkDeletion seq m ct).1.abunds.length = m.k ∧
    (∀ b, (mkDeletion seq m ct).2.abund_hist b =
        m.abund_hist b + ((get_kmers m.k seq).map ct.get_count).count b) ∧
    (mkDeletion seq m ct).2.unique_hist =
      histIncrement m.unique_hist (((get_kmers m.k seq).map ct.get_count).count 0) := by
  refine ⟨get_kmers_length_of_junction m.k seq hk hlen, mkDeletion_abunds seq m ct,
    ?_, mkDeletion_abund_hist seq m ct, mkDeletion_unique_hist seq m ct⟩
  rw [mkDeletion_abunds, List.length_map]
  exact get_kmers_length_of_junction m.k seq hk hlen

/-- Witness for C3: `k = 3`, junction `"AACCG"` of length `5 = 2·3 − 1`. -/
theorem claim_C3_deletion_event_witness :
    1 ≤ mutK3D2.k ∧ "AACCG".toList.length = 2 * mutK3D2.k - 1 ∧
    ((get_kmers mutK3D2.k "AACCG".toList).length = mutK3D2.k ∧
     (mkDeletion "AACCG".toList mutK3D2 ctZero).1.abunds =
       (get_kmers mutK3D2.k "AACCG".toList).map ctZero.get_count ∧
     (mkDeletion "AACCG".toList mutK3D2 ctZero).1.abunds.length = mutK3D2.k ∧
     (∀ b, (mkDeletion "AACCG".toList mutK3D2 ctZero).2.abund_hist b =
         mutK3D2.abund_hist b +
           ((get_kmers mutK3D2.k "AACCG".toList).map ctZero.get_count).count b) ∧
     (mkDeletion "AACCG".toList mutK3D2 ctZero).2.unique_hist =
       histIncrement mutK3D2.unique_hist
         (((get_kmers mutK3D2.k "AACCG".toList).map ctZero.get_count).count 0)) :=
  ⟨by decide, by decide,
   claim_C3_deletion_event mutK3D2 ctZero "AACCG".toList (by decide) (by decide)⟩

/-- C5: with a configured limit `L > 0` and a fresh counter, the deletion
counter never exceeds `L + 1`: it is at most `L + 1` after `process`, every
loop continuation started at a state within the bound stays within it, and
from any loop state whose counter already exceeds `L` the loop stops at the
top of the next iteration, changing nothing. -/
theorem claim_C5_limit_bound (m : MutatorDel) (ct : Counttable) (seq : List Char)
    (hl : 0 < m.limit) (hfresh : m.delcount = 0) :
    (process m seq ct).1.delcount ≤ m.limit + 1 ∧
    (∀ (idxs : List Nat) (kc : Nat) (mi : MutatorDel), mi.limit = m.limit →
      mi.delcount ≤ m.limit + 1 →
      (processLoop ct seq idxs (mi, kc)).1.delcount ≤ m.limit + 1) ∧
    (∀ (idxs : List Nat) (kc : Nat) (mi : MutatorDel), mi.limit = m.limit →
      m.limit < mi.delcount →
      processLoop ct seq idxs (mi, kc) = (mi, kc)) := by
  refine ⟨?_, ?_, ?_⟩
  · exact processLoop_delcount_le ct seq _ m 0 hl (by omega)
  · intro idxs kc mi hlim hle
    have h := processLoop_delcount_le ct seq idxs mi kc (by omega) (by omega)
    omega
  · intro idxs kc mi hlim hgt
    exact processLoop_stopped ct seq idxs mi kc (by omega) (by omega)

/-- Witness for C5: `k = 3`, `d = 1`, limit 1, fresh counter. -/
theorem claim_C5_limit_bound_witness :
    0 < mutK3D1L1.limit ∧ mutK3D1L1.delcount = 0 ∧
    (process mutK3D1L1 "ACGTACGT".toList ctZero).1.delcount ≤ mutK3D1L1.limit + 1 :=
  ⟨by decide, by decide,
   (claim_C5_limit_bound mutK3D1L1 ctZero "ACGTACGT".toList (by decide) (by decide)).1⟩

/-- C6: starting from a fresh deletion counter, the value returned by
`process` equals `getEventCount() × k` — `k` per retained event, accumulated
incrementally (the identity holds even when the limit stops the loop early)
— and `get_mut_count` is a pure read of the deletion counter. -/
theorem claim_C6_return_total (m : MutatorDel) (ct : Counttable) (seq : List Char)
    (hfresh : m.delcount = 0) :
    (process m seq ct).2 = get_mut_count (process m seq ct).1 * m.k ∧
    get_mut_count (process m seq ct).1 = (process m seq ct).1.delcount := by
  obtain ⟨n, h1, h2⟩ :=
    processLoop_kmercount ct seq (windowIndices m.k m.delsize seq.length) m 0
  refine ⟨?_, rfl⟩
  show (processLoop ct seq (windowIndices m.k m.delsize seq.length) (m, 0)).2 =
    get_mut_count (processLoop ct seq (windowIndices m.k m.delsize seq.length) (m, 0)).1 * m.k
  rw [h2, get_mut_count, h1, hfresh]
  simp

/-- Witness for C6: the spec's example run returns `18 = 6 × 3`. -/
theorem claim_C6_return_total_witness :
    mutK3D2.delcount = 0 ∧
    (process mutK3D2 "AAACCCGGGTTT".toList ctZero).2 =
      get_mut_count (process mutK3D2 "AAACCCGGGTTT".toList ctZero).1 * mutK3D2.k :=
  ⟨by decide,
   (claim_C6_return_total mutK3D2 ctZero "AAACCCGGGTTT".toList (by decide)).1⟩

/-- C8: `Deletion::print` is a pure function of the event in this embedding
(no state change); its output is exactly three newline-terminated lines: the
junction sequence prefixed by the record marker `'>'`, then `k` space
characters followed by `'|'`, then the `k` abundance values in order
separated by single spaces; concretely, for `k = 3` and abundances
`[5, 0, 2]` the lines after the sequence line are `"   |"` and `"5 0 2"`. -/
theorem claim_C8_render (k : Nat) (d : Deletion) (hk : 0 < k) :
    Deletion.print k d =
      ('>' :: d.sequence) ++ '\n' ::
        (List.replicate k ' ' ++ '|' :: '\n' ::
          (natChars (d.abunds.getD 0 0) ++ abundsTail d.abunds 1 (k - 1) ++ ['\n'])) ∧
    Deletion.print 3 ⟨"AACCG".toList, [5, 0, 2]⟩ =
      (">AACCG\n" ++ "   |\n" ++ "5 0 2\n").toList := by
  refine ⟨?_, by decide⟩
  obtain ⟨k', rfl⟩ : ∃ k', k = k' + 1 := ⟨k - 1, by omega⟩
  show printAbundsGo d.abunds (k' + 1) 0
      (printSpacesLoop ('>' :: d.sequence ++ ['\n']) (k' + 1) ++ ['|', '\n']) ++ ['\n'] = _
  rw [printSpacesLoop_eq]
  simp only [printAbundsGo, if_neg (by omega : ¬ 0 < 0)]
  rw [printAbundsGo_eq d.abunds k' 1 _ (by omega)]
  simp [List.append_assoc]

/-- Witness for C8 at `k = 3`, abundances `[5, 0, 2]`. -/
theorem claim_C8_render_witness :
    0 < 3 ∧
    Deletion.print 3 ⟨"AACCG".toList, [5, 0, 2]⟩ =
      (">AACCG\n" ++ "   |\n" ++ "5 0 2\n").toList :=
  ⟨by decide, (claim_C8_render 3 ⟨"AACCG".toList, [5, 0, 2]⟩ (by decide)).2⟩

/-- C9 counterexample: with a configured limit (`L = 1`), calling `process`
on two different sequences with the same mutator is *not* additive — the
first call exhausts the limit, so the second call contributes nothing, while
an independent single-call run on the second sequence does contribute.  At
bucket 0 the combined histogram holds 6, the elementwise sum 12. -/
theorem claim_C9_counterexample :
    ¬ ((process (process mutK3D1L1 "ACGTACGT".toList ctZero).1
          "ACGTACGA".toList ctZero).1.abund_hist 0 =
        (process mutK3D1L1 "ACGTACGT".toList ctZero).1.abund_hist 0 +
          (process mutK3D1L1 "ACGTACGA".toList ctZero).1.abund_hist 0) := by
  decide

/-- C9 as amended: when no positive run limit is configured and the two
Mutators start from the shared Mutator's initial state with empty histograms
and a skip policy that never skips, processing two sequences in succession
accumulates additively: each histogram bucket after both calls equals the
sum of the buckets produced by the two independent single-call runs. -/
theorem claim_C9_amended_additivity (m : MutatorDel) (ct : Counttable)
    (s1 s2 : List Char) (hlim : m.limit = 0) (hs : ∀ n, m.skipF n = false)
    (ha : ∀ b, m.abund_hist b = 0) (hu : ∀ b, m.unique_hist b = 0) :
    ∀ b,
      (process (process m s1 ct).1 s2 ct).1.abund_hist b =
        (process m s1 ct).1.abund_hist b + (process m s2 ct).1.abund_hist b ∧
      (process (process m s1 ct).1 s2 ct).1.unique_hist b =
        (process m s1 ct).1.unique_hist b + (process m s2 ct).1.unique_hist b := by
  intro b
  obtain ⟨hk1, hd1, hl1, hsk1⟩ :=
    processLoop_frame ct s1 (windowIndices m.k m.delsize s1.length) m 0
  have h1 := processLoop_hists ct s1 (windowIndices m.k m.delsize s1.length) m 0 b
    hlim hs
  have h2 := processLoop_hists ct s2 (windowIndices m.k m.delsize s2.length) m 0 b
    hlim hs
  have hr1 : (process m s1 ct).1 =
      (processLoop ct s1 (windowIndices m.k m.delsize s1.length) (m, 0)).1 := rfl
  have h12 := processLoop_hists ct s2
    (windowIndices (process m s1 ct).1.k (process m s1 ct).1.delsize s2.length)
    (process m s1 ct).1 0 b (by rw [hr1, hl1]; exact hlim)
    (by rw [hr1, hsk1]; exact hs)
  have hw : windowIndices (process m s1 ct).1.k (process m s1 ct).1.delsize s2.length
      = windowIndices m.k m.delsize s2.length := by
    rw [hr1, hk1, hd1]
  have hr2 : (process m s2 ct).1 =
      (processLoop ct s2 (windowIndices m.k m.delsize s2.length) (m, 0)).1 := rfl
  have hH := ha b
  have hU := hu b
  constructor
  · rw [show (process (process m s1 ct).1 s2 ct).1 =
        (processLoop ct s2
          (windowIndices (process m s1 ct).1.k (process m s1 ct).1.delsize s2.length)
          ((process m s1 ct).1, 0)).1 from rfl]
    rw [h12.1, hw, hr1, hk1, hd1, h1.1, hr2, h2.1]
    omega
  · rw [show (process (process m s1 ct).1 s2 ct).1 =
        (processLoop ct s2
          (windowIndices (process m s1 ct).1.k (process m s1 ct).1.delsize s2.length)
          ((process m s1 ct).1, 0)).1 from rfl]
    rw [h12.2, hw, hr1, hk1, hd1, h1.2, hr2, h2.2]
    omega

/-- Witness for the amended C9: no limit, never-skip, empty histograms, the
two example sequences, checked at bucket 0. -/
theorem claim_C9_amended_additivity_witness :
    mutK3D2.limit = 0 ∧
    ((process (process mutK3D2 "AAACCCGGGTTT".toList ctZero).1
        "ACGTACGTACGT".toList ctZero).1.abund_hist 0 =
      (process mutK3D2 "AAACCCGGGTTT".toList ctZero).1.abund_hist 0 +
        (process mutK3D2 "ACGTACGTACGT".toList ctZero).1.abund_hist 0 ∧
     (process (process mutK3D2 "AAACCCGGGTTT".toList ctZero).1
        "ACGTACGTACGT".toList ctZero).1.unique_hist 0 =
      (process mutK3D2 "AAACCCGGGTTT".toList ctZero).1.unique_hist 0 +
        (process mutK3D2 "ACGTACGTACGT".toList ctZero).1.unique_hist 0) :=
  ⟨by decide,
   claim_C9_amended_additivity mutK3D2 ctZero "AAACCCGGGTTT".toList
     "ACGTACGTACGT".toList (by decide) (fun _ => rfl) (fun _ => rfl) (fun _ => rfl) 0⟩

/-- C10: with limit `L > 0`, a fresh counter, a never-skipping policy and at
least `L + 2` admissible window positions, `process` handles exactly `L + 1`
deletion events — the strict comparison `delcount > limit` before the
increment lets the counter reach `L + 1`, and the loop breaks only on the
following iteration. -/
theorem claim_C10_exactly_limit_plus_one (m : MutatorDel) (ct : Counttable)
    (seq : List Char) (hl : 0 < m.limit) (hfresh : m.delcount = 0)
    (hs : ∀ n, m.skipF n = false)
    (hwin : m.limit + 2 ≤ (windowIndices m.k m.delsize seq.length).length) :
    (process m seq ct).1.delcount = m.limit + 1 := by
  have h := processLoop_delcount_min ct seq
    (windowIndices m.k m.delsize seq.length) m 0 hl hs (by omega)
  show (processLoop ct seq (windowIndices m.k m.delsize seq.length) (m, 0)).1.delcount = _
  rw [h]
  omega

/-- Witness for C10: limit 1, `k = 3`, `d = 1`, sequence of length 8 with
`3 = L + 2` admissible positions; exactly 2 events are processed. -/
theorem claim_C10_exactly_limit_plus_one_witness :
    0 < mutK3D1L1.limit ∧ mutK3D1L1.delcount = 0 ∧
    mutK3D1L1.limit + 2 ≤
      (windowIndices mutK3D1L1.k mutK3D1L1.delsize "ACGTACGT".toList.length).length ∧
    (process mutK3D1L1 "ACGTACGT".toList ctZero).1.delcount = mutK3D1L1.limit + 1 :=
  ⟨by decide, by decide, by decide,
   claim_C10_exactly_limit_plus_one mutK3D1L1 ctZero "ACGTACGT".toList
     (by decide) (by decide) (fun _ => rfl) (by decide)⟩

end Mutsim
